import Mathlib

/-!
Verification of the gitown code-ownership tool (src/gitown/gitown.py).

The embedding models the two algorithmic components of the program:
the ownership calculator (`get_committers_for_file` and its helpers) and
the manifest reconciler (`check_files` steps A, B, C plus `update_file`).
Manifests and alias tables are insertion-ordered association lists,
mirroring Python dicts; percentages are rationals; the external
authorship source (`git blame`) is an opaque function from file name to
blame text, and its memoization (`lru_cache`) is modelled by explicit
state passing with an invocation counter.
-/

namespace Gitown

/-- Owner lists as stored in a manifest entry. -/
abbrev Owners := List String

/-- A manifest: insertion-ordered mapping pattern to owner list (Python dict). -/
abbrev Manifest := List (String × Owners)

/-- Alias table: insertion-ordered mapping raw identity to canonical owner name. -/
abbrev AliasTable := List (String × String)

/-- First-match association lookup, the model of Python `d.get(k)` / `d[k]`. -/
def alookup {α : Type} : List (String × α) → String → Option α
  | [], _ => none
  | kv :: rest, k => if kv.1 = k then some kv.2 else alookup rest k

/-- The key sequence of an association list (Python `d.keys()` order). -/
def akeys {α : Type} (m : List (String × α)) : List String :=
  m.map Prod.fst

/-- Python dict assignment `d[k] = v`: replace in place if the key exists,
append otherwise. -/
def dictInsert {α : Type} (m : List (String × α)) (k : String) (v : α) :
    List (String × α) :=
  if k ∈ akeys m then
    m.map (fun kv => if kv.1 = k then (k, v) else kv)
  else m ++ [(k, v)]

/-- Python `bool(set(a) & set(b))`: the two owner lists share an element. -/
def intersects (a b : List String) : Bool :=
  a.any (fun x => b.contains x)

/-! ## Manifest loading (CodeOwnersUpdater.__init__, lines 37-45) -/

/-- Split a character list on a separator character; consecutive separators
yield empty fields, the empty list yields one empty field (the semantics of
Python and Lean string splitting on a one-character separator). -/
def splitOnChar (sep : Char) : List Char → List (List Char)
  | [] => [[]]
  | c :: rest =>
    let r := splitOnChar sep rest
    if c = sep then [] :: r
    else
      match r with
      | [] => [[c]]
      | w :: ws => (c :: w) :: ws

/-- The csv reader with delimiter a single space: an empty line yields an
empty row, any other line is split on single spaces. -/
def parseLine (line : String) : List String :=
  if line = "" then [] else (splitOnChar ' ' line.data).map (fun w => String.mk w)

/-- One iteration of the loading loop: an empty row raises IndexError and is
skipped; a row whose first field is exactly the string of one hash mark is
skipped; any other row assigns pattern to remaining fields. -/
def readRow (m : Manifest) (row : List String) : Manifest :=
  match row with
  | [] => m
  | f :: rest => if f = "#" then m else dictInsert m f rest

/-- `original_codeowner_data` built from the manifest file lines. -/
def loadManifest (lines : List String) : Manifest :=
  lines.foldl (fun m line => readRow m (parseLine line)) []

/-! ## Substring counting (Python str.count) -/

/-- Count of non-overlapping occurrences of a pattern, scanning left to
right; after a match the remaining characters of the match are skipped via
the skip counter (structural recursion on the text). -/
def countSubAux (pat : List Char) : List Char → Nat → Nat
  | [], _ => 0
  | _ :: rest, Nat.succ k => countSubAux pat rest k
  | c :: rest, 0 =>
    if pat.isPrefixOf (c :: rest) then
      1 + countSubAux pat rest (pat.length - 1)
    else countSubAux pat rest 0

/-- Python `s.count(pat)`: for the empty pattern the count is `len(s) + 1`. -/
def countSubstr (s pat : String) : Nat :=
  if pat = "" then s.data.length + 1 else countSubAux pat.data s.data 0

/-! ## Ownership calculator (lines 127-152) -/

/-- `get_committer_line_frequency_percentage`, with the blame text already
retrieved: zero total lines gives frequency zero, otherwise the percentage
of lines counted for the committer email. -/
def freqOfBlame (blame committer_email : String) : ℚ :=
  let total_lines := countSubstr blame "\n"
  let total_lines_by_committer := countSubstr blame committer_email
  if total_lines ≠ 0 then
    ((total_lines_by_committer : ℚ) / (total_lines : ℚ)) * 100
  else 0

/-- `get_committer_line_frequency_percentage` with the authorship source as
an opaque function from file name to blame text. -/
def get_committer_line_frequency_percentage (src : String → String)
    (committer_email filename : String) : ℚ :=
  freqOfBlame (src filename) committer_email

/-- Python `map[value] = map.get(value, 0) + f` on the frequency dict. -/
def updAdd (m : List (String × ℚ)) (k : String) (v : ℚ) : List (String × ℚ) :=
  if k ∈ akeys m then
    m.map (fun kv => if kv.1 = k then (kv.1, kv.2 + v) else kv)
  else m ++ [(k, v)]

/-- The `committer_line_frequency_map` accumulated over the alias table, in
alias-table iteration order. -/
def committer_line_frequency_map (src : String → String) (owners : AliasTable)
    (filename : String) : List (String × ℚ) :=
  owners.foldl
    (fun m kv =>
      updAdd m kv.2 (get_committer_line_frequency_percentage src kv.1 filename))
    []

/-- Stable insertion of one entry into a frequency-sorted list: the new entry
(earlier in the input) goes before the first entry whose percentage is at
least its own, hence before every entry of equal percentage. -/
def insertAsc (x : String × ℚ) : List (String × ℚ) → List (String × ℚ)
  | [] => [x]
  | y :: ys => if x.2 ≤ y.2 then x :: y :: ys else y :: insertAsc x ys

/-- Python `sorted(items, key=lambda item: item[1])`: a stable ascending sort
by percentage (insertion sort yields the same list as any stable sort). -/
def sortByFreq : List (String × ℚ) → List (String × ℚ)
  | [] => []
  | x :: xs => insertAsc x (sortByFreq xs)

/-- `get_committers_for_file`: sort the frequency map ascending, keep owners
whose accumulated percentage strictly exceeds the threshold, return names. -/
def get_committers_for_file (src : String → String) (owners : AliasTable)
    (threshold : ℚ) (filename : String) : List String :=
  ((sortByFreq (committer_line_frequency_map src owners filename)).filter
    (fun a => threshold < a.2)).map Prod.fst

/-! ## Manifest reconciler (check_files, lines 47-92) -/

/-- The `codeowners_data` map built in `check_files`: files whose committer
list is empty contribute no entry. -/
def freshMap (src : String → String) (owners : AliasTable) (threshold : ℚ)
    (files : List String) : Manifest :=
  files.foldl
    (fun m f =>
      let cs := get_committers_for_file src owners threshold f
      if cs ≠ [] then dictInsert m f cs else m)
    []

/-- Step A: carry forward every original entry, replaced by the fresh entry
for the same key when one exists (`codeowners_data.get(key, value)`). -/
def stepA (original fresh : Manifest) : Manifest :=
  original.foldl
    (fun u kv => dictInsert u kv.1 ((alookup fresh kv.1).getD kv.2))
    []

/-- Step C filter: keep an entry iff its key is the wildcard or its owner
set does not intersect the splat set. -/
def stepC (m : Manifest) (splat : Owners) : Manifest :=
  m.filter (fun kv => kv.1 = "*" || !intersects kv.2 splat)

/-- The pair of manifests produced by one `check_files` run. -/
structure ReconcileResult where
  updated : Manifest
  optimized : Manifest
deriving DecidableEq, Repr

/-- `check_files` reconciliation, lines 63-80: step A, splat snapshot, step B
(insert fresh entries disjoint from splat), step C (optimization filter with
the same splat snapshot). -/
def reconcile (original fresh : Manifest) : ReconcileResult :=
  let u1 := stepA original fresh
  let splat := (alookup u1 "*").getD []
  let u2 := fresh.foldl
    (fun u kv => if !intersects kv.2 splat then dictInsert u kv.1 kv.2 else u)
    u1
  { updated := u2, optimized := stepC u2 splat }

/-! ## update_file (lines 94-125) and process signalling -/

/-- Python dict equality `updated_data != original`: order-insensitive, same
key set and, per key, equal owner sequences. -/
def dictBeq (a b : Manifest) : Bool :=
  a.all (fun kv => alookup b kv.1 == some kv.2) &&
    b.all (fun kv => alookup a kv.1 == some kv.2)

/-- `update_file`: rewrite the manifest file (first component: the content
written, none when no write happens) and set the `updated` flag, exactly
when the new data differs from the original as a dict. -/
def update_file (original updated_data : Manifest) : Option Manifest × Bool :=
  if dictBeq updated_data original then (none, false) else (some updated_data, true)

/-- One whole run of `CodeOwnersUpdater.check_files` followed by
`update_file` on the optimized data. -/
def runUpdater (src : String → String) (owners : AliasTable) (threshold : ℚ)
    (files : List String) (original : Manifest) : Option Manifest × Bool :=
  update_file original (reconcile original (freshMap src owners threshold files)).optimized

/-- `CodeOwnersUpdater.main` (lines 154-156): 1 when the manifest was
rewritten, 0 otherwise. -/
def classMain (src : String → String) (owners : AliasTable) (threshold : ℚ)
    (files : List String) (original : Manifest) : Nat :=
  if (runUpdater src owners threshold files original).2 then 1 else 0

/-- The module-level `main` (lines 159-192): it calls the updater, discards
the returned value, and either raises (debug set, an error) or falls off the
end returning Python None. -/
def module_main (debug : Bool) (src : String → String) (owners : AliasTable)
    (threshold : ℚ) (files : List String) (original : Manifest) :
    Except String (Option Nat) :=
  let _ := classMain src owners threshold files original
  if debug then Except.error "debug" else Except.ok none

/-- `sys.exit(x)` on the value returned by `main`: None exits with status 0,
an escaping exception exits with status 1. -/
def processExit (debug : Bool) (src : String → String) (owners : AliasTable)
    (threshold : ℚ) (files : List String) (original : Manifest) : Nat :=
  match module_main debug src owners threshold files original with
  | Except.error _ => 1
  | Except.ok none => 0
  | Except.ok (some n) => n

/-! ## Memoized authorship source (lru_cache on get_blame_file_content) -/

/-- The memoization state of the run: the cache of the `lru_cache`-decorated
`get_blame_file_content`, plus a count of invocations of the external
authorship source. -/
structure BlameState where
  cache : List (String × String)
  calls : Nat

/-- `get_blame_file_content` under `lru_cache`: a hit returns the cached
text without invoking the source; a miss invokes the source once, stores the
result, and bumps the invocation count. -/
def get_blame_file_content (src : String → String) (filename : String)
    (s : BlameState) : String × BlameState :=
  match alookup s.cache filename with
  | some c => (c, s)
  | none => (src filename, ⟨s.cache ++ [(filename, src filename)], s.calls + 1⟩)

/-- `get_committer_line_frequency_percentage` as executed, threading the
memoization state through the blame lookup. -/
def freqPctSt (src : String → String) (committer_email filename : String)
    (s : BlameState) : ℚ × BlameState :=
  let r := get_blame_file_content src filename s
  (freqOfBlame r.1 committer_email, r.2)

/-- The frequency-map loop of `get_committers_for_file` as executed, one
blame lookup attempted per alias-table entry. -/
def freqMapSt (src : String → String) (owners : AliasTable) (filename : String)
    (s : BlameState) : List (String × ℚ) × BlameState :=
  owners.foldl
    (fun acc kv =>
      let r := freqPctSt src kv.1 filename acc.2
      (updAdd acc.1 kv.2 r.1, r.2))
    ([], s)

/-- `get_committers_for_file` as executed, threading the memoization state. -/
def gcffSt (src : String → String) (owners : AliasTable) (threshold : ℚ)
    (filename : String) (s : BlameState) : List String × BlameState :=
  let r := freqMapSt src owners filename s
  (((sortByFreq r.1).filter (fun a => threshold < a.2)).map Prod.fst, r.2)

/-- The `codeowners_data` loop of `check_files` as executed, threading the
memoization state across all files. -/
def freshMapSt (src : String → String) (owners : AliasTable) (threshold : ℚ)
    (files : List String) (s : BlameState) : Manifest × BlameState :=
  files.foldl
    (fun acc f =>
      let r := gcffSt src owners threshold f acc.2
      (if r.1 ≠ [] then dictInsert acc.1 f r.1 else acc.1, r.2))
    ([], s)

/-- The distinct elements of a list in order of first occurrence. -/
def dedupFirst (l : List String) : List String :=
  l.foldl (fun acc x => if x ∈ acc then acc else acc ++ [x]) []

/-- Invariant of the memoization state: every cache entry stores exactly the
source's text for its path, the cached paths are distinct, and the number of
source invocations equals the number of cached paths. -/
def GoodCache (src : String → String) (s : BlameState) : Prop :=
  (∀ kv ∈ s.cache, kv.2 = src kv.1) ∧ (akeys s.cache).Nodup ∧
    s.calls = s.cache.length

/-! ## Association-list lemmas -/

theorem mem_akeys {α : Type} {m : List (String × α)} {k : String} :
    k ∈ akeys m ↔ ∃ v, (k, v) ∈ m := by
  constructor
  · intro h
    obtain ⟨⟨a, b⟩, hab, he⟩ := List.mem_map.mp h
    subst he
    exact ⟨b, hab⟩
  · rintro ⟨v, hv⟩
    exact List.mem_map.mpr ⟨(k, v), hv, rfl⟩

theorem alookup_eq_none {α : Type} (m : List (String × α)) (k : String) :
    alookup m k = none ↔ k ∉ akeys m := by
  induction m with
  | nil => simp [alookup, akeys]
  | cons kv rest ih =>
    simp only [alookup, akeys, List.map_cons, List.mem_cons]
    by_cases h : kv.1 = k
    · simp [h]
    · simp only [if_neg h]
      rw [ih]
      unfold akeys
      constructor
      · intro h1
        rintro (h2 | h2)
        · exact h h2.symm
        · exact h1 h2
      · intro h1 h2
        exact h1 (Or.inr h2)

theorem mem_of_alookup {α : Type} {m : List (String × α)} {k : String} {v : α}
    (h : alookup m k = some v) : (k, v) ∈ m := by
  induction m with
  | nil => simp [alookup] at h
  | cons kv rest ih =>
    by_cases hk : kv.1 = k
    · simp only [alookup, if_pos hk, Option.some.injEq] at h
      have : kv = (k, v) := by
        rw [← hk, ← h]
      rw [← this]
      exact List.mem_cons_self kv rest
    · simp only [alookup, if_neg hk] at h
      exact List.mem_cons_of_mem _ (ih h)

theorem alookup_of_mem_nodup {α : Type} {m : List (String × α)} {k : String}
    {v : α} (hnd : (akeys m).Nodup) (h : (k, v) ∈ m) : alookup m k = some v := by
  induction m with
  | nil => simp at h
  | cons kv rest ih =>
    simp only [akeys, List.map_cons, List.nodup_cons] at hnd
    rcases List.mem_cons.mp h with h1 | h1
    · rw [← h1]
      simp [alookup]
    · have hk : kv.1 ≠ k := by
        intro he
        exact hnd.1 (he ▸ (List.mem_map.mpr ⟨(k, v), h1, rfl⟩))
      simp only [alookup, if_neg hk]
      exact ih hnd.2 h1

theorem value_eq_of_mem_nodup {α : Type} {m : List (String × α)} {k : String}
    {a b : α} (hnd : (akeys m).Nodup) (ha : (k, a) ∈ m) (hb : (k, b) ∈ m) :
    a = b := by
  have h1 := alookup_of_mem_nodup hnd ha
  have h2 := alookup_of_mem_nodup hnd hb
  rw [h1] at h2
  injection h2

theorem alookup_map_replace {α : Type} (m : List (String × α)) {k f : String}
    (v : α) (h : k ≠ f) :
    alookup (m.map (fun kv => if kv.1 = k then (k, v) else kv)) f =
      alookup m f := by
  induction m with
  | nil => rfl
  | cons kv rest ih =>
    by_cases hk : kv.1 = k
    · have hkf : kv.1 ≠ f := by rw [hk]; exact h
      simp only [List.map_cons, alookup, if_pos hk, if_neg h, if_neg hkf]
      exact ih
    · simp only [List.map_cons, alookup, if_neg hk]
      by_cases hf : kv.1 = f
      · simp [hf]
      · simp only [if_neg hf]
        exact ih

theorem alookup_append_single_ne {α : Type} (m : List (String × α))
    {k f : String} (v : α) (h : k ≠ f) :
    alookup (m ++ [(k, v)]) f = alookup m f := by
  induction m with
  | nil => simp [alookup, h]
  | cons kv rest ih =>
    by_cases hf : kv.1 = f
    · simp [alookup, hf]
    · simp only [List.cons_append, alookup, if_neg hf]
      exact ih

theorem alookup_dictInsert_ne {α : Type} (m : List (String × α)) {k f : String}
    (v : α) (h : k ≠ f) : alookup (dictInsert m k v) f = alookup m f := by
  unfold dictInsert
  by_cases hmem : k ∈ akeys m
  · rw [if_pos hmem]
    exact alookup_map_replace m v h
  · rw [if_neg hmem]
    exact alookup_append_single_ne m v h

theorem akeys_dictInsert {α : Type} (m : List (String × α)) (k : String) (v : α) :
    akeys (dictInsert m k v) =
      if k ∈ akeys m then akeys m else akeys m ++ [k] := by
  unfold dictInsert
  by_cases hmem : k ∈ akeys m
  · rw [if_pos hmem, if_pos hmem]
    unfold akeys
    rw [List.map_map]
    congr 1
    funext kv
    by_cases hk : kv.1 = k <;> simp [hk, Function.comp]
  · rw [if_neg hmem, if_neg hmem]
    unfold akeys
    simp

theorem nodup_akeys_dictInsert {α : Type} {m : List (String × α)} {k : String}
    {v : α} (h : (akeys m).Nodup) : (akeys (dictInsert m k v)).Nodup := by
  rw [akeys_dictInsert]
  by_cases hmem : k ∈ akeys m
  · simpa [hmem]
  · simp only [if_neg hmem, List.nodup_append]
    exact ⟨h, List.nodup_singleton k, by simpa using fun hk => hmem hk⟩

theorem alookup_dictInsert_self {α : Type} (m : List (String × α)) (k : String)
    (v : α) : alookup (dictInsert m k v) k = some v := by
  unfold dictInsert
  by_cases hmem : k ∈ akeys m
  · rw [if_pos hmem]
    induction m with
    | nil => simp [akeys] at hmem
    | cons kv rest ih =>
      by_cases hk : kv.1 = k
      · simp [alookup, hk]
      · simp only [akeys, List.map_cons, List.mem_cons] at hmem
        rcases hmem with h1 | h1
        · exact absurd h1.symm hk
        · simp only [List.map_cons, alookup, if_neg hk]
          exact ih h1
  · rw [if_neg hmem]
    rw [← alookup_eq_none] at hmem
    induction m with
    | nil => simp [alookup]
    | cons kv rest ih =>
      simp only [alookup] at hmem ⊢
      by_cases hk : kv.1 = k
      · simp [hk] at hmem
      · simp only [if_neg hk] at hmem ⊢
        exact ih hmem

/-! ## Sorting lemmas -/

theorem insertAsc_perm (x : String × ℚ) (l : List (String × ℚ)) :
    List.Perm (insertAsc x l) (x :: l) := by
  induction l with
  | nil => rfl
  | cons y ys ih =>
    unfold insertAsc
    by_cases h : x.2 ≤ y.2
    · rw [if_pos h]
    · rw [if_neg h]
      exact List.Perm.trans (List.Perm.cons y ih) (List.Perm.swap x y ys)

theorem sortByFreq_perm (l : List (String × ℚ)) : List.Perm (sortByFreq l) l := by
  induction l with
  | nil => rfl
  | cons x xs ih =>
    exact List.Perm.trans (insertAsc_perm x (sortByFreq xs)) (List.Perm.cons x ih)

theorem mem_insertAsc {a x : String × ℚ} {l : List (String × ℚ)} :
    a ∈ insertAsc x l ↔ a = x ∨ a ∈ l := by
  rw [(insertAsc_perm x l).mem_iff]
  simp

theorem sorted_insertAsc {x : String × ℚ} {l : List (String × ℚ)}
    (h : l.Pairwise (fun a b => a.2 ≤ b.2)) :
    (insertAsc x l).Pairwise (fun a b => a.2 ≤ b.2) := by
  induction l with
  | nil => simp [insertAsc]
  | cons y ys ih =>
    rcases List.pairwise_cons.mp h with ⟨hy, hys⟩
    unfold insertAsc
    by_cases hle : x.2 ≤ y.2
    · rw [if_pos hle]
      refine List.pairwise_cons.mpr ⟨?_, h⟩
      intro b hb
      rcases List.mem_cons.mp hb with hb | hb
      · rw [hb]; exact hle
      · exact le_trans hle (hy b hb)
    · rw [if_neg hle]
      refine List.pairwise_cons.mpr ⟨?_, ih hys⟩
      intro b hb
      rcases mem_insertAsc.mp hb with hb | hb
      · rw [hb]; exact le_of_not_le hle
      · exact hy b hb

theorem sorted_sortByFreq (l : List (String × ℚ)) :
    (sortByFreq l).Pairwise (fun a b => a.2 ≤ b.2) := by
  induction l with
  | nil => exact List.Pairwise.nil
  | cons x xs ih => exact sorted_insertAsc ih

theorem filter_insertAsc (x : String × ℚ) (l : List (String × ℚ)) (q : ℚ) :
    (insertAsc x l).filter (fun a => a.2 = q) =
      if x.2 = q then x :: l.filter (fun a => a.2 = q)
      else l.filter (fun a => a.2 = q) := by
  induction l with
  | nil =>
    unfold insertAsc
    by_cases hq : x.2 = q <;> simp [hq]
  | cons y ys ih =>
    unfold insertAsc
    by_cases hle : x.2 ≤ y.2
    · rw [if_pos hle]
      by_cases hq : x.2 = q <;> simp [List.filter_cons, hq]
    · rw [if_neg hle]
      have hlt : y.2 < x.2 := lt_of_not_le hle
      by_cases hq : x.2 = q
      · have hyq : ¬ y.2 = q := by
          intro he
          rw [he, ← hq] at hlt
          exact lt_irrefl _ hlt
        simp [List.filter_cons, hq, hyq, ih]
      · by_cases hyq : y.2 = q <;> simp [List.filter_cons, hq, hyq, ih]

theorem filter_sortByFreq (l : List (String × ℚ)) (q : ℚ) :
    (sortByFreq l).filter (fun a => a.2 = q) = l.filter (fun a => a.2 = q) := by
  induction l with
  | nil => rfl
  | cons x xs ih =>
    show (insertAsc x (sortByFreq xs)).filter _ = _
    rw [filter_insertAsc]
    by_cases hq : x.2 = q <;> simp [List.filter_cons, hq, ih]

/-! ## Frequency-map and dedupFirst lemmas -/

theorem akeys_updAdd (m : List (String × ℚ)) (k : String) (v : ℚ) :
    akeys (updAdd m k v) =
      if k ∈ akeys m then akeys m else akeys m ++ [k] := by
  unfold updAdd
  by_cases hmem : k ∈ akeys m
  · rw [if_pos hmem, if_pos hmem]
    unfold akeys
    rw [List.map_map]
    congr 1
    funext kv
    by_cases hk : kv.1 = k <;> simp [hk, Function.comp]
  · rw [if_neg hmem, if_neg hmem]
    unfold akeys
    simp

theorem akeys_freqMap_fold (owners : AliasTable)
    (g : String × String → ℚ) (m : List (String × ℚ)) :
    akeys (owners.foldl (fun m2 kv => updAdd m2 kv.2 (g kv)) m) =
      (owners.map Prod.snd).foldl
        (fun acc x => if x ∈ acc then acc else acc ++ [x]) (akeys m) := by
  induction owners generalizing m with
  | nil => rfl
  | cons kv rest ih =>
    show akeys (rest.foldl _ (updAdd m kv.2 (g kv))) = _
    rw [ih, akeys_updAdd]
    rfl

theorem akeys_committer_map (src : String → String) (owners : AliasTable)
    (filename : String) :
    akeys (committer_line_frequency_map src owners filename) =
      dedupFirst (owners.map Prod.snd) := by
  unfold committer_line_frequency_map dedupFirst
  exact akeys_freqMap_fold owners _ []

theorem dedupFold_nodup (l : List String) (acc : List String)
    (h : acc.Nodup) :
    (l.foldl (fun acc x => if x ∈ acc then acc else acc ++ [x]) acc).Nodup := by
  induction l generalizing acc with
  | nil => exact h
  | cons x rest ih =>
    show (rest.foldl _ (if x ∈ acc then acc else acc ++ [x])).Nodup
    by_cases hx : x ∈ acc
    · rw [if_pos hx]
      exact ih acc h
    · rw [if_neg hx]
      refine ih _ ?_
      simp only [List.nodup_append]
      exact ⟨h, List.nodup_singleton x, by simpa using fun hk => hx hk⟩

theorem nodup_akeys_committer_map (src : String → String) (owners : AliasTable)
    (filename : String) :
    (akeys (committer_line_frequency_map src owners filename)).Nodup := by
  rw [akeys_committer_map]
  exact dedupFold_nodup _ [] List.nodup_nil

theorem mem_dedupFold (l : List String) (acc : List String) (x : String) :
    x ∈ l.foldl (fun acc y => if y ∈ acc then acc else acc ++ [y]) acc ↔
      x ∈ acc ∨ x ∈ l := by
  induction l generalizing acc with
  | nil => simp
  | cons y rest ih =>
    show x ∈ rest.foldl _ (if y ∈ acc then acc else acc ++ [y]) ↔ _
    by_cases hy : y ∈ acc
    · rw [if_pos hy, ih]
      constructor
      · rintro (h | h)
        · exact Or.inl h
        · exact Or.inr (List.mem_cons_of_mem y h)
      · rintro (h | h)
        · exact Or.inl h
        · rcases List.mem_cons.mp h with h | h
          · exact Or.inl (h ▸ hy)
          · exact Or.inr h
    · rw [if_neg hy, ih]
      simp only [List.mem_append, List.mem_singleton, List.mem_cons]
      tauto

theorem mem_dedupFirst (l : List String) (x : String) :
    x ∈ dedupFirst l ↔ x ∈ l := by
  unfold dedupFirst
  rw [mem_dedupFold]
  simp

theorem nodup_dedupFirst (l : List String) : (dedupFirst l).Nodup :=
  dedupFold_nodup l [] List.nodup_nil

theorem length_le_dedupFirst {l1 l2 : List String} (hnd : l1.Nodup)
    (hsub : ∀ x ∈ l1, x ∈ l2) : l1.length ≤ (dedupFirst l2).length := by
  have h1 : l1.toFinset.card = l1.length := List.toFinset_card_of_nodup hnd
  have h2 : (dedupFirst l2).toFinset.card = (dedupFirst l2).length :=
    List.toFinset_card_of_nodup (nodup_dedupFirst l2)
  have hsub2 : l1.toFinset ⊆ (dedupFirst l2).toFinset := by
    intro x hx
    rw [List.mem_toFinset] at hx ⊢
    rw [mem_dedupFirst]
    exact hsub x hx
  calc l1.length = l1.toFinset.card := h1.symm
    _ ≤ (dedupFirst l2).toFinset.card := Finset.card_le_card hsub2
    _ = (dedupFirst l2).length := h2

/-! ## Reconciler lemmas -/

theorem foldl_dictInsert_distinct {α : Type} (l : List (String × α))
    (g : String × α → α) (m0 : List (String × α))
    (hnd : (akeys l).Nodup) (hdis : ∀ k ∈ akeys l, k ∉ akeys m0) :
    l.foldl (fun u kv => dictInsert u kv.1 (g kv)) m0 =
      m0 ++ l.map (fun kv => (kv.1, g kv)) := by
  induction l generalizing m0 with
  | nil => simp
  | cons kv rest ih =>
    have hnd2 : (akeys rest).Nodup := (List.nodup_cons.mp hnd).2
    have hhead : kv.1 ∉ akeys rest := (List.nodup_cons.mp hnd).1
    have hk0 : kv.1 ∉ akeys m0 := hdis kv.1 (List.mem_cons_self _ _)
    have hins : dictInsert m0 kv.1 (g kv) = m0 ++ [(kv.1, g kv)] := by
      unfold dictInsert
      rw [if_neg hk0]
    show rest.foldl _ (dictInsert m0 kv.1 (g kv)) = _
    rw [hins, ih (m0 ++ [(kv.1, g kv)]) hnd2 ?_]
    · rw [List.append_assoc]
      rfl
    · intro k hk
      unfold akeys
      rw [List.map_append, List.mem_append]
      rintro (h1 | h1)
      · exact hdis k (List.mem_cons_of_mem _ hk) h1
      · rw [List.map_singleton, List.mem_singleton] at h1
        rw [h1] at hk
        exact hhead hk

theorem stepA_eq_map (original fresh : Manifest)
    (hnd : (akeys original).Nodup) :
    stepA original fresh =
      original.map (fun kv => (kv.1, (alookup fresh kv.1).getD kv.2)) := by
  unfold stepA
  have h := foldl_dictInsert_distinct original
    (fun kv => (alookup fresh kv.1).getD kv.2) [] hnd (by simp [akeys])
  simpa using h

theorem stepA_nil (m : Manifest) (hnd : (akeys m).Nodup) : stepA m [] = m := by
  rw [stepA_eq_map m [] hnd]
  have : (fun kv : String × Owners => (kv.1, (alookup [] kv.1).getD kv.2)) =
      fun kv => kv := by
    funext kv
    rfl
  rw [this]
  exact List.map_id m

theorem nodup_akeys_foldl_dictInsert {α : Type} (l : List (String × α))
    (g : String × α → α) (m0 : List (String × α)) (h : (akeys m0).Nodup) :
    (akeys (l.foldl (fun u kv => dictInsert u kv.1 (g kv)) m0)).Nodup := by
  induction l generalizing m0 with
  | nil => exact h
  | cons kv rest ih => exact ih _ (nodup_akeys_dictInsert h)

theorem alookup_map_value {α : Type} (m : List (String × α)) (G : String → α → α)
    (key : String) :
    alookup (m.map (fun kv => (kv.1, G kv.1 kv.2))) key =
      Option.map (G key) (alookup m key) := by
  induction m with
  | nil => rfl
  | cons kv rest ih =>
    by_cases hk : kv.1 = key
    · simp [alookup, hk]
    · simp [alookup, hk, ih]

theorem alookup_condInsert_fold {c : String × Owners → Bool} (g : Manifest) :
    ∀ (u : Manifest) {key : String}, key ∉ akeys g →
    alookup (g.foldl
      (fun u2 kv => if c kv then dictInsert u2 kv.1 kv.2 else u2) u) key =
      alookup u key := by
  induction g with
  | nil => intro u key _; rfl
  | cons kv rest ih =>
    intro u key hkey
    have hne : kv.1 ≠ key := by
      intro he
      exact hkey (by rw [← he]; exact List.mem_cons_self _ _)
    have hrest : key ∉ akeys rest := fun h2 => hkey (List.mem_cons_of_mem _ h2)
    show alookup (rest.foldl _ (if c kv then dictInsert u kv.1 kv.2 else u)) key = _
    by_cases hc : c kv = true
    · rw [if_pos hc, ih _ hrest, alookup_dictInsert_ne u kv.2 hne]
    · rw [if_neg hc, ih _ hrest]

theorem alookup_condInsert_fold_eq {c : String × Owners → Bool} (g : Manifest) :
    ∀ (u : Manifest) {key : String} {v : Owners},
    (∀ kv ∈ g, kv.1 = key → kv.2 = v) → alookup u key = some v →
    alookup (g.foldl
      (fun u2 kv => if c kv then dictInsert u2 kv.1 kv.2 else u2) u) key =
      some v := by
  induction g with
  | nil => intro u key v _ hu; exact hu
  | cons kv rest ih =>
    intro u key v hg hu
    have hrest : ∀ kv2 ∈ rest, kv2.1 = key → kv2.2 = v :=
      fun kv2 h2 => hg kv2 (List.mem_cons_of_mem _ h2)
    show alookup (rest.foldl _ (if c kv then dictInsert u kv.1 kv.2 else u)) key = _
    by_cases hc : c kv = true
    · rw [if_pos hc]
      by_cases hk : kv.1 = key
      · have hv : kv.2 = v := hg kv (List.mem_cons_self _ _) hk
        refine ih _ hrest ?_
        rw [hk, hv]
        exact alookup_dictInsert_self u key v
      · refine ih _ hrest ?_
        rw [alookup_dictInsert_ne u kv.2 hk]
        exact hu
    · rw [if_neg hc]
      exact ih _ hrest hu

theorem nodup_condInsert_fold {c : String × Owners → Bool} (g : Manifest) :
    ∀ (u : Manifest), (akeys u).Nodup →
    (akeys (g.foldl
      (fun u2 kv => if c kv then dictInsert u2 kv.1 kv.2 else u2) u)).Nodup := by
  induction g with
  | nil => exact fun u h => h
  | cons kv rest ih =>
    intro u h
    show (akeys (rest.foldl _ (if c kv then dictInsert u kv.1 kv.2 else u))).Nodup
    by_cases hc : c kv = true
    · rw [if_pos hc]
      exact ih _ (nodup_akeys_dictInsert h)
    · rw [if_neg hc]
      exact ih _ h

theorem alookup_filter_of_pass (m : Manifest) (p : String × Owners → Bool)
    {key : String} (hp : ∀ kv : String × Owners, kv.1 = key → p kv = true) :
    alookup (m.filter p) key = alookup m key := by
  induction m with
  | nil => rfl
  | cons kv rest ih =>
    rw [List.filter_cons]
    by_cases hk : kv.1 = key
    · rw [if_pos (hp kv hk)]
      simp [alookup, hk]
    · by_cases hpk : p kv = true
      · rw [if_pos hpk]
        simp only [alookup, if_neg hk]
        exact ih
      · rw [if_neg hpk]
        simp only [alookup, if_neg hk]
        exact ih

theorem dictBeq_iff (a b : Manifest) (hna : (akeys a).Nodup)
    (hnb : (akeys b).Nodup) :
    dictBeq a b = true ↔ ∀ k, alookup a k = alookup b k := by
  unfold dictBeq
  rw [Bool.and_eq_true, List.all_eq_true, List.all_eq_true]
  constructor
  · rintro ⟨h1, h2⟩ k
    cases ha : alookup a k with
    | some v =>
      have hm := mem_of_alookup ha
      have hb2 := h1 _ hm
      rw [beq_iff_eq] at hb2
      rw [hb2]
    | none =>
      cases hb : alookup b k with
      | none => rfl
      | some w =>
        have hm := mem_of_alookup hb
        have ha2 := h2 _ hm
        rw [beq_iff_eq] at ha2
        rw [ha] at ha2
        exact absurd ha2 (by simp)
  · intro h
    constructor
    · intro kv hkv
      rw [beq_iff_eq, ← h kv.1]
      exact alookup_of_mem_nodup hna hkv
    · intro kv hkv
      rw [beq_iff_eq, h kv.1]
      exact alookup_of_mem_nodup hnb hkv

theorem updAdd_values_zero {m : List (String × ℚ)} {k : String} {v : ℚ}
    (hm : ∀ kv ∈ m, kv.2 = 0) (hv : v = 0) : ∀ kv ∈ updAdd m k v, kv.2 = 0 := by
  intro kv hkv
  unfold updAdd at hkv
  by_cases hmem : k ∈ akeys m
  · rw [if_pos hmem] at hkv
    obtain ⟨kv0, hkv0, he⟩ := List.mem_map.mp hkv
    by_cases hk : kv0.1 = k
    · rw [if_pos hk] at he
      rw [← he]
      show kv0.2 + v = 0
      rw [hm kv0 hkv0, hv, add_zero]
    · rw [if_neg hk] at he
      rw [← he]
      exact hm kv0 hkv0
  · rw [if_neg hmem] at hkv
    rcases List.mem_append.mp hkv with h1 | h1
    · exact hm kv h1
    · rw [List.mem_singleton] at h1
      rw [h1]
      exact hv

theorem freqmap_values_zero (src : String → String) (owners : AliasTable)
    (filename : String)
    (h : ∀ e, get_committer_line_frequency_percentage src e filename = 0) :
    ∀ kv ∈ committer_line_frequency_map src owners filename, kv.2 = 0 := by
  unfold committer_line_frequency_map
  suffices H : ∀ (ow : AliasTable) (m : List (String × ℚ)),
      (∀ kv ∈ m, kv.2 = 0) →
      ∀ kv ∈ ow.foldl
        (fun m2 kv =>
          updAdd m2 kv.2 (get_committer_line_frequency_percentage src kv.1 filename))
        m, kv.2 = 0 by
    exact H owners [] (by simp)
  intro ow
  induction ow with
  | nil => exact fun m hm => hm
  | cons kv0 rest ih =>
    intro m hm
    exact ih _ (updAdd_values_zero hm (h kv0.1))

/-! ## Memoization lemmas -/

theorem getBlame_good {src : String → String} {fn : String} {s : BlameState}
    (h : GoodCache src s) :
    (get_blame_file_content src fn s).1 = src fn ∧
    GoodCache src (get_blame_file_content src fn s).2 ∧
    (∀ k, k ∈ akeys (get_blame_file_content src fn s).2.cache →
      k ∈ akeys s.cache ∨ k = fn) := by
  obtain ⟨hval, hnd, hlen⟩ := h
  cases hc : alookup s.cache fn with
  | some c =>
    have hred : get_blame_file_content src fn s = (c, s) := by
      unfold get_blame_file_content
      rw [hc]
    rw [hred]
    exact ⟨hval (fn, c) (mem_of_alookup hc), ⟨hval, hnd, hlen⟩,
      fun k hk => Or.inl hk⟩
  | none =>
    have hfn : fn ∉ akeys s.cache := (alookup_eq_none _ _).mp hc
    have hred : get_blame_file_content src fn s =
        (src fn, ⟨s.cache ++ [(fn, src fn)], s.calls + 1⟩) := by
      unfold get_blame_file_content
      rw [hc]
    rw [hred]
    refine ⟨rfl, ⟨?_, ?_, ?_⟩, ?_⟩
    · intro kv hkv
      rcases List.mem_append.mp hkv with h1 | h1
      · exact hval kv h1
      · rw [List.mem_singleton] at h1
        rw [h1]
    · show (akeys (s.cache ++ [(fn, src fn)])).Nodup
      unfold akeys
      rw [List.map_append, List.map_singleton, List.nodup_append]
      refine ⟨hnd, List.nodup_singleton _, ?_⟩
      intro a ha hb
      rw [List.mem_singleton] at hb
      rw [hb] at ha
      exact hfn ha
    · show s.calls + 1 = (s.cache ++ [(fn, src fn)]).length
      rw [List.length_append, hlen]
      rfl
    · intro k hk
      unfold akeys at hk
      rw [List.map_append, List.map_singleton, List.mem_append] at hk
      rcases hk with h1 | h1
      · exact Or.inl h1
      · rw [List.mem_singleton] at h1
        exact Or.inr h1

theorem freqMapSt_fold (src : String → String) (filename : String) :
    ∀ (ow : AliasTable) (m : List (String × ℚ)) (s : BlameState),
    GoodCache src s →
    ((ow.foldl
        (fun acc kv =>
          let r := freqPctSt src kv.1 filename acc.2
          (updAdd acc.1 kv.2 r.1, r.2))
        (m, s)).1 =
      ow.foldl
        (fun m2 kv =>
          updAdd m2 kv.2
            (get_committer_line_frequency_percentage src kv.1 filename))
        m) ∧
    GoodCache src
      (ow.foldl
        (fun acc kv =>
          let r := freqPctSt src kv.1 filename acc.2
          (updAdd acc.1 kv.2 r.1, r.2))
        (m, s)).2 ∧
    (∀ k, k ∈ akeys (ow.foldl
        (fun acc kv =>
          let r := freqPctSt src kv.1 filename acc.2
          (updAdd acc.1 kv.2 r.1, r.2))
        (m, s)).2.cache →
      k ∈ akeys s.cache ∨ k = filename) := by
  intro ow
  induction ow with
  | nil => exact fun m s hs => ⟨rfl, hs, fun k hk => Or.inl hk⟩
  | cons kv rest ih =>
    intro m s hs
    obtain ⟨hres, hgood, hgrow⟩ := @getBlame_good src filename s hs
    have hstep2 : (freqPctSt src kv.1 filename s).2 =
        (get_blame_file_content src filename s).2 := rfl
    have hstep1 : (freqPctSt src kv.1 filename s).1 =
        get_committer_line_frequency_percentage src kv.1 filename := by
      show freqOfBlame (get_blame_file_content src filename s).1 kv.1 = _
      rw [hres]
      rfl
    obtain ⟨h1, h2, h3⟩ := ih (updAdd m kv.2 (freqPctSt src kv.1 filename s).1)
      (freqPctSt src kv.1 filename s).2 (by rw [hstep2]; exact hgood)
    refine ⟨?_, ?_, ?_⟩
    · show (rest.foldl _
          (updAdd m kv.2 (freqPctSt src kv.1 filename s).1,
            (freqPctSt src kv.1 filename s).2)).1 = _
      rw [h1, hstep1]
      rfl
    · exact h2
    · intro k hk
      rcases h3 k hk with h4 | h4
      · rw [hstep2] at h4
        exact hgrow k h4
      · exact Or.inr h4

theorem gcffSt_correct (src : String → String) (owners : AliasTable) (t : ℚ)
    (f : String) {s : BlameState} (hs : GoodCache src s) :
    (gcffSt src owners t f s).1 = get_committers_for_file src owners t f ∧
    GoodCache src (gcffSt src owners t f s).2 ∧
    (∀ k, k ∈ akeys (gcffSt src owners t f s).2.cache →
      k ∈ akeys s.cache ∨ k = f) := by
  obtain ⟨h1, h2, h3⟩ := freqMapSt_fold src f owners [] s hs
  refine ⟨?_, h2, h3⟩
  show ((sortByFreq (freqMapSt src owners f s).1).filter _).map Prod.fst = _
  have he : (freqMapSt src owners f s).1 =
      committer_line_frequency_map src owners f := h1
  rw [he]
  rfl

theorem freshMapSt_fold (src : String → String) (owners : AliasTable) (t : ℚ) :
    ∀ (fs : List String) (m : Manifest) (s : BlameState), GoodCache src s →
    ((fs.foldl
        (fun acc f =>
          let r := gcffSt src owners t f acc.2
          (if r.1 ≠ [] then dictInsert acc.1 f r.1 else acc.1, r.2))
        (m, s)).1 =
      fs.foldl
        (fun m2 f =>
          let cs := get_committers_for_file src owners t f
          if cs ≠ [] then dictInsert m2 f cs else m2)
        m) ∧
    GoodCache src
      (fs.foldl
        (fun acc f =>
          let r := gcffSt src owners t f acc.2
          (if r.1 ≠ [] then dictInsert acc.1 f r.1 else acc.1, r.2))
        (m, s)).2 ∧
    (∀ k, k ∈ akeys (fs.foldl
        (fun acc f =>
          let r := gcffSt src owners t f acc.2
          (if r.1 ≠ [] then dictInsert acc.1 f r.1 else acc.1, r.2))
        (m, s)).2.cache →
      k ∈ akeys s.cache ∨ k ∈ fs) := by
  intro fs
  induction fs with
  | nil => exact fun m s hs => ⟨rfl, hs, fun k hk => Or.inl hk⟩
  | cons g rest ih =>
    intro m s hs
    obtain ⟨hres, hgood, hgrow⟩ := gcffSt_correct src owners t g hs
    obtain ⟨h1, h2, h3⟩ := ih
      (if (gcffSt src owners t g s).1 ≠ [] then
        dictInsert m g (gcffSt src owners t g s).1
      else m)
      (gcffSt src owners t g s).2 hgood
    refine ⟨?_, ?_, ?_⟩
    · show (rest.foldl _
          (if (gcffSt src owners t g s).1 ≠ [] then
            dictInsert m g (gcffSt src owners t g s).1
          else m, (gcffSt src owners t g s).2)).1 = _
      rw [h1, hres]
      rfl
    · exact h2
    · intro k hk
      rcases h3 k hk with h4 | h4
      · rcases hgrow k h4 with h5 | h5
        · exact Or.inl h5
        · exact Or.inr (by rw [h5]; exact List.mem_cons_self _ _)
      · exact Or.inr (List.mem_cons_of_mem _ h4)

/-! ## Claim theorems -/

/-- Claim C1: on a run where the optimized manifest differs from the original
(so the manifest is rewritten), `CodeOwnersUpdater.main` computes 1, yet the
module-level `main` discards that value and returns Python None, so the
process exit status is 0 rather than the non-zero status the claim requires:
the binary changed/unchanged outcome is never exposed to the invoking
environment. -/
theorem gitown_C1_exit_code :
    classMain (fun _ => "") [] 25 [] [("*", ["A"]), ("f", ["A"])] = 1 ∧
    (runUpdater (fun _ => "") [] 25 [] [("*", ["A"]), ("f", ["A"])]).2 = true ∧
    processExit false (fun _ => "") [] 25 [] [("*", ["A"]), ("f", ["A"])] = 0 := by
  refine ⟨rfl, rfl, rfl⟩

/-- Claim C4, counterexample: the line `#c o1` begins with a hash mark, yet
loading it yields the entry mapping pattern `#c` to owners `[o1]` — the code
skips a row only when its entire first field equals the hash mark, not every
line beginning with one. -/
theorem gitown_C4_counterexample :
    (("#c o1".data.take 1 = ['#']) ∧ loadManifest ["#c o1"] = [("#c", ["o1"])]) ∧
    ¬ loadManifest ["#c o1"] = [] := by
  refine ⟨⟨rfl, rfl⟩, by decide⟩

/-- Claim C3, counterexample: with blame text containing no line terminator
and the threshold configured to -1, every frequency is 0 but 0 exceeds the
threshold, so the returned owner list is not empty. -/
theorem gitown_C3_counterexample :
    countSubstr ((fun _ => "") "f") "\n" = 0 ∧
    get_committers_for_file (fun _ => "") [("a", "A")] (-1) "f" = ["A"] := by
  refine ⟨rfl, by decide⟩

/-- Claim C5, counterexample: when fresh ownership introduces the wildcard
key (absent from the original manifest), the splat snapshot predates the
insertion, so re-reconciling the updated manifest against empty fresh
ownership filters with the new wildcard entry and produces a different
optimized manifest. -/
theorem gitown_C5_counterexample :
    (reconcile (reconcile [("a", ["X"])] [("*", ["X"])]).updated []).optimized ≠
      (reconcile [("a", ["X"])] [("*", ["X"])]).optimized := by
  decide

/-- Claim C8, counterexample: fresh ownership for every pattern exactly
matches the existing entries, yet the run still rewrites the manifest,
because step C drops an original entry that is redundant with the splat
set. -/
theorem gitown_C8_counterexample :
    alookup [("*", ["A"]), ("f", ["A"])] "f" = some ["A"] ∧
    (update_file [("*", ["A"]), ("f", ["A"])]
      (reconcile [("*", ["A"]), ("f", ["A"])] [("f", ["A"])]).optimized).2 = true := by
  refine ⟨rfl, by decide⟩

/-- Claim C2: membership in the list returned by `get_committers_for_file`
is governed by a strictly exclusive boundary: an owner whose accumulated
line-frequency percentage equals the threshold exactly is excluded, and an
owner whose accumulated percentage strictly exceeds it is included. -/
theorem gitown_C2_threshold_strict (src : String → String) (owners : AliasTable)
    (t : ℚ) (filename name : String) (q : ℚ)
    (h : (name, q) ∈ committer_line_frequency_map src owners filename) :
    name ∈ get_committers_for_file src owners t filename ↔ t < q := by
  unfold get_committers_for_file
  constructor
  · intro hm
    obtain ⟨a, ha, hfst⟩ := List.mem_map.mp hm
    obtain ⟨hs, hp⟩ := List.mem_filter.mp ha
    have hain : a ∈ committer_line_frequency_map src owners filename :=
      (sortByFreq_perm _).mem_iff.mp hs
    have ha2 : (name, a.2) ∈ committer_line_frequency_map src owners filename := by
      rw [← hfst]
      exact hain
    have hq : a.2 = q :=
      value_eq_of_mem_nodup (nodup_akeys_committer_map src owners filename) ha2 h
    rw [← hq]
    exact of_decide_eq_true hp
  · intro hlt
    refine List.mem_map.mpr ⟨(name, q), List.mem_filter.mpr ⟨?_, ?_⟩, rfl⟩
    · exact (sortByFreq_perm _).mem_iff.mpr h
    · exact decide_eq_true hlt

theorem gitown_C2_witness :
    (("A", (100 : ℚ)) ∈
      committer_line_frequency_map (fun _ => "a@x\n") [("a@x", "A")] "f") ∧
    ("A" ∈ get_committers_for_file (fun _ => "a@x\n") [("a@x", "A")] 100 "f" ↔
      (100 : ℚ) < 100) := by
  have hmem : ("A", (100 : ℚ)) ∈
      committer_line_frequency_map (fun _ => "a@x\n") [("a@x", "A")] "f" := by
    have he : committer_line_frequency_map (fun _ => "a@x\n") [("a@x", "A")] "f" =
        [("A", 100)] := by
      simp [committer_line_frequency_map, updAdd, akeys,
        get_committer_line_frequency_percentage, freqOfBlame, countSubstr,
        countSubAux, List.isPrefixOf]
    rw [he]
    exact List.mem_singleton.mpr rfl
  exact ⟨hmem, gitown_C2_threshold_strict (fun _ => "a@x\n") [("a@x", "A")] 100 "f" "A" 100 hmem⟩

/-- Claim C3 (amended): when the blame text of a file contains no line
terminator, every identity's frequency percentage is 0 (no division fault),
and `get_committers_for_file` returns the empty list regardless of the alias
table whenever the configured threshold is nonnegative. (With a negative
threshold the zero-percentage owners all qualify, so the original
"regardless of the configured threshold" fails.) -/
theorem gitown_C3_zero_lines (src : String → String) (owners : AliasTable)
    (t : ℚ) (filename : String)
    (h : countSubstr (src filename) "\n" = 0) :
    (∀ email, get_committer_line_frequency_percentage src email filename = 0) ∧
    (0 ≤ t → get_committers_for_file src owners t filename = []) := by
  have hfreq : ∀ email, get_committer_line_frequency_percentage src email filename = 0 := by
    intro email
    unfold get_committer_line_frequency_percentage freqOfBlame
    simp [h]
  refine ⟨hfreq, fun ht => ?_⟩
  have hvals := freqmap_values_zero src owners filename hfreq
  unfold get_committers_for_file
  have hfil : (sortByFreq (committer_line_frequency_map src owners filename)).filter
      (fun a => t < a.2) = [] := by
    rw [List.filter_eq_nil_iff]
    intro a ha
    have hmem : a ∈ committer_line_frequency_map src owners filename :=
      (sortByFreq_perm _).mem_iff.mp ha
    have hz : a.2 = 0 := hvals a hmem
    simp only [decide_eq_true_eq]
    rw [hz]
    exact not_lt_of_le ht
  rw [hfil]
  rfl

theorem gitown_C3_witness :
    countSubstr ((fun _ => "x") "f") "\n" = 0 ∧
    get_committer_line_frequency_percentage (fun _ => "x") "a" "f" = 0 ∧
    get_committers_for_file (fun _ => "x") [("a", "A")] 25 "f" = [] := by
  refine ⟨rfl, ?_, ?_⟩
  · exact (gitown_C3_zero_lines (fun _ => "x") [("a", "A")] 25 "f" rfl).1 "a"
  · exact (gitown_C3_zero_lines (fun _ => "x") [("a", "A")] 25 "f" rfl).2 (by norm_num)

/-- Claim C4 (amended): when the manifest is loaded, lines are consumed left
to right; a line is treated as a comment and skipped exactly when its first
space-delimited field is the one-character hash-mark string (a line
beginning with a hash mark followed by more characters in the same field is
NOT skipped and yields an entry); a line with no fields is silently skipped;
every other line yields an entry mapping its first field to the remaining
fields. -/
theorem gitown_C4_load_skip (lines : List String) (line : String) (m : Manifest)
    (f : String) (rest : List String) :
    (loadManifest (lines ++ [line]) = readRow (loadManifest lines) (parseLine line)) ∧
    (parseLine line = [] → readRow m (parseLine line) = m) ∧
    (parseLine line = f :: rest →
      ((f = "#" → readRow m (parseLine line) = m) ∧
       (f ≠ "#" → readRow m (parseLine line) = dictInsert m f rest))) := by
  refine ⟨?_, ?_, ?_⟩
  · unfold loadManifest
    rw [List.foldl_append]
    rfl
  · intro h
    rw [h]
    rfl
  · intro h
    constructor
    · intro hf
      rw [h, hf]
      simp [readRow]
    · intro hf
      rw [h]
      simp [readRow, hf]

theorem gitown_C4_witness :
    (loadManifest ["f.py @a"] = readRow (loadManifest []) (parseLine "f.py @a")) ∧
    (readRow [] (parseLine "# note") = []) ∧
    (readRow [] (parseLine "f.py @a") = dictInsert [] "f.py" ["@a"]) := by
  refine ⟨?_, ?_, ?_⟩
  · exact (gitown_C4_load_skip [] "f.py @a" [] "f.py" ["@a"]).1
  · exact ((gitown_C4_load_skip [] "# note" [] "#" ["note"]).2.2 (by decide)).1 rfl
  · exact ((gitown_C4_load_skip [] "f.py @a" [] "f.py" ["@a"]).2.2 (by decide)).2 (by decide)

/-- Claim C6: the list returned by `get_committers_for_file` is the name
projection of the qualifying entries of the frequency map sorted ascending
by accumulated percentage; those sorted entries are pairwise ascending; the
sort is stable (for every percentage value the entries carrying it keep
their frequency-map order), and the frequency map lists canonical owner
names in order of first occurrence in the alias table, so equal percentages
appear in first-occurrence order. -/
theorem gitown_C6_sorted_stable (src : String → String) (owners : AliasTable)
    (t : ℚ) (filename : String) :
    (get_committers_for_file src owners t filename =
      ((sortByFreq (committer_line_frequency_map src owners filename)).filter
        (fun a => t < a.2)).map Prod.fst) ∧
    (((sortByFreq (committer_line_frequency_map src owners filename)).filter
        (fun a => t < a.2)).Pairwise (fun a b => a.2 ≤ b.2)) ∧
    (∀ q : ℚ,
      (sortByFreq (committer_line_frequency_map src owners filename)).filter
          (fun a => a.2 = q) =
        (committer_line_frequency_map src owners filename).filter
          (fun a => a.2 = q)) ∧
    (akeys (committer_line_frequency_map src owners filename) =
      dedupFirst (owners.map Prod.snd)) := by
  refine ⟨rfl, ?_, ?_, akeys_committer_map src owners filename⟩
  · exact (sorted_sortByFreq _).sublist (List.filter_sublist _)
  · intro q
    exact filter_sortByFreq _ q

/-- Claim C5 (amended): with any manifest as original and empty fresh
ownership, reconciliation produces exactly the step C filter of the original
(with splat the original wildcard entry); and re-reconciling the updated
manifest against empty fresh ownership reproduces the same optimized
manifest provided the wildcard key was not newly inserted by step B, that
is, whenever the wildcard key is absent from fresh ownership or present in
the original. (When fresh ownership introduces the wildcard key, the splat
snapshot predates the insertion and re-reconciliation can differ.) -/
theorem gitown_C5_idempotent (o f : Manifest) (hno : (akeys o).Nodup)
    (hnf : (akeys f).Nodup) :
    ((reconcile o []).optimized = stepC o ((alookup o "*").getD [])) ∧
    (("*" ∉ akeys f ∨ "*" ∈ akeys o) →
      (reconcile (reconcile o f).updated []).optimized =
        (reconcile o f).optimized) := by
  have hA : stepA o [] = o := stepA_nil o hno
  constructor
  · have h1 : (reconcile o []).optimized =
        stepC (stepA o []) ((alookup (stepA o []) "*").getD []) := rfl
    rw [h1, hA]
  · intro hstar
    have hrec : (reconcile o f).updated =
        f.foldl
          (fun u kv =>
            if !intersects kv.2 ((alookup (stepA o f) "*").getD []) then
              dictInsert u kv.1 kv.2
            else u)
          (stepA o f) := rfl
    have hopt : (reconcile o f).optimized =
        stepC (reconcile o f).updated ((alookup (stepA o f) "*").getD []) := rfl
    have hndu : (akeys (reconcile o f).updated).Nodup := by
      rw [hrec]
      exact nodup_condInsert_fold f _
        (nodup_akeys_foldl_dictInsert o _ [] (by simp [akeys]))
    have hsame : alookup (reconcile o f).updated "*" = alookup (stepA o f) "*" := by
      rcases hstar with hout | hin
      · rw [hrec]
        exact alookup_condInsert_fold f _ hout
      · by_cases hf : "*" ∈ akeys f
        · obtain ⟨w, hw⟩ := mem_akeys.mp hf
          have hfw : alookup f "*" = some w := alookup_of_mem_nodup hnf hw
          obtain ⟨v0, hv0⟩ := mem_akeys.mp hin
          have hov : alookup o "*" = some v0 := alookup_of_mem_nodup hno hv0
          have hu1 : alookup (stepA o f) "*" = some w := by
            rw [stepA_eq_map o f hno,
              alookup_map_value o (fun k v => (alookup f k).getD v) "*", hov]
            simp [hfw]
          rw [hrec, hu1]
          refine alookup_condInsert_fold_eq f _ ?_ hu1
          intro kv hkv hk
          have hkv2 : ("*", kv.2) ∈ f := by
            rw [← hk]
            exact hkv
          have := alookup_of_mem_nodup hnf hkv2
          rw [hfw] at this
          injection this with h2
          exact h2.symm
        · rw [hrec]
          exact alookup_condInsert_fold f _ hf
    have h2 : (reconcile (reconcile o f).updated []).optimized =
        stepC (stepA (reconcile o f).updated [])
          ((alookup (stepA (reconcile o f).updated []) "*").getD []) := rfl
    rw [h2, stepA_nil _ hndu, hsame, hopt]

theorem gitown_C5_witness :
    ((reconcile [("*", ["A"]), ("f", ["A"])] []).optimized =
      stepC [("*", ["A"]), ("f", ["A"])]
        ((alookup [("*", ["A"]), ("f", ["A"])] "*").getD [])) ∧
    ((reconcile (reconcile [("*", ["A"]), ("f", ["A"])] [("f", ["B"])]).updated
        []).optimized =
      (reconcile [("*", ["A"]), ("f", ["A"])] [("f", ["B"])]).optimized) := by
  refine ⟨?_, ?_⟩
  · exact (gitown_C5_idempotent [("*", ["A"]), ("f", ["A"])] [("f", ["B"])]
      (by decide) (by decide)).1
  · exact (gitown_C5_idempotent [("*", ["A"]), ("f", ["A"])] [("f", ["B"])]
      (by decide) (by decide)).2 (Or.inl (by decide))

/-- Claim C7: after reconciliation the optimized manifest's key set is a
subset of the updated manifest's key set, and any wildcard entry of the
updated manifest is retained in the optimized manifest with its owner list
unchanged. -/
theorem gitown_C7_optimized_subset (o f : Manifest) :
    (∀ k, k ∈ akeys (reconcile o f).optimized →
      k ∈ akeys (reconcile o f).updated) ∧
    (∀ v, alookup (reconcile o f).updated "*" = some v →
      alookup (reconcile o f).optimized "*" = some v) := by
  have hopt : (reconcile o f).optimized =
      stepC (reconcile o f).updated ((alookup (stepA o f) "*").getD []) := rfl
  constructor
  · intro k hk
    rw [hopt] at hk
    unfold stepC at hk
    obtain ⟨v, hv⟩ := mem_akeys.mp hk
    exact mem_akeys.mpr ⟨v, (List.mem_filter.mp hv).1⟩
  · intro v hv
    rw [hopt]
    unfold stepC
    rw [alookup_filter_of_pass]
    · exact hv
    · intro kv hkv
      simp [hkv]

theorem gitown_C7_witness :
    "*" ∈ akeys (reconcile [("*", ["A"]), ("f", ["A"])] []).updated ∧
    alookup (reconcile [("*", ["A"]), ("f", ["A"])] []).optimized "*" =
      some ["A"] := by
  refine ⟨?_, ?_⟩
  · exact (gitown_C7_optimized_subset [("*", ["A"]), ("f", ["A"])] []).1 "*"
      (by decide)
  · exact (gitown_C7_optimized_subset [("*", ["A"]), ("f", ["A"])] []).2 ["A"]
      (by decide)

/-- Claim C8 (amended): the manifest file is rewritten, and the updated flag
set, exactly when the optimized manifest differs from the original as a dict
(some key is mapped differently or present on one side only); when they are
equal nothing is written and the run is reported unchanged; and what is
written, when written, is exactly the optimized data. (Fresh ownership
matching every existing entry does not by itself guarantee an unchanged
report, since step C may still drop wildcard-redundant original entries.) -/
theorem gitown_C8_write_iff (o u : Manifest) (hno : (akeys o).Nodup)
    (hnu : (akeys u).Nodup) :
    ((update_file o u).1 ≠ none ↔ ¬ ∀ k, alookup u k = alookup o k) ∧
    ((update_file o u).2 = true ↔ ¬ ∀ k, alookup u k = alookup o k) ∧
    (∀ m, (update_file o u).1 = some m → m = u) := by
  unfold update_file
  by_cases hb : dictBeq u o = true
  · rw [if_pos hb]
    have hall := (dictBeq_iff u o hnu hno).mp hb
    refine ⟨?_, ?_, ?_⟩
    · constructor
      · intro h
        exact absurd rfl h
      · intro h
        exact absurd hall h
    · constructor
      · intro h
        exact absurd h (by simp)
      · intro h
        exact absurd hall h
    · intro m hm
      exact absurd hm (by simp)
  · rw [if_neg hb]
    have hne : ¬ ∀ k, alookup u k = alookup o k :=
      fun h => hb ((dictBeq_iff u o hnu hno).mpr h)
    refine ⟨?_, ?_, ?_⟩
    · simp [hne]
    · simp [hne]
    · intro m hm
      have : u = m := by injection hm
      exact this.symm

theorem gitown_C8_witness :
    ((update_file [("a", ["X"])] [("a", ["Y"])]).2 = true ↔
      ¬ ∀ k, alookup [("a", ["Y"])] k = alookup [("a", ["X"])] k) :=
  (gitown_C8_write_iff [("a", ["X"])] [("a", ["Y"])] (by decide) (by decide)).2.1

/-- Claim C10: a file whose computed qualifying-owner list is empty is
omitted from the fresh-ownership map entirely, and if the original manifest
has an entry whose pattern equals that file path, the updated manifest
carries that entry forward with its original owner list unchanged. -/
theorem gitown_C10_empty_owners_preserved (src : String → String)
    (owners : AliasTable) (t : ℚ) (files : List String) (o : Manifest)
    (fn : String) (hno : (akeys o).Nodup)
    (h : get_committers_for_file src owners t fn = []) :
    alookup (freshMap src owners t files) fn = none ∧
    (fn ∈ akeys o →
      alookup (reconcile o (freshMap src owners t files)).updated fn =
        alookup o fn) := by
  have h1 : alookup (freshMap src owners t files) fn = none := by
    unfold freshMap
    suffices H : ∀ (fs : List String) (m : Manifest), alookup m fn = none →
        alookup (fs.foldl
          (fun m2 g =>
            let cs := get_committers_for_file src owners t g
            if cs ≠ [] then dictInsert m2 g cs else m2)
          m) fn = none by
      exact H files [] rfl
    intro fs
    induction fs with
    | nil => exact fun m hm => hm
    | cons g rest ih =>
      intro m hm
      show alookup (rest.foldl _
        (if get_committers_for_file src owners t g ≠ [] then
          dictInsert m g (get_committers_for_file src owners t g)
        else m)) fn = none
      by_cases hg : g = fn
      · rw [hg, h]
        simp only [ne_eq, not_true_eq_false, if_false]
        exact ih m hm
      · by_cases hcs : get_committers_for_file src owners t g ≠ []
        · rw [if_pos hcs]
          refine ih _ ?_
          rw [alookup_dictInsert_ne m _ hg]
          exact hm
        · rw [if_neg hcs]
          exact ih m hm
  refine ⟨h1, fun hmem => ?_⟩
  obtain ⟨v, hv⟩ := mem_akeys.mp hmem
  have hlo : alookup o fn = some v := alookup_of_mem_nodup hno hv
  have hu1 : alookup (stepA o (freshMap src owners t files)) fn = some v := by
    rw [stepA_eq_map o _ hno,
      alookup_map_value o (fun k w => (alookup (freshMap src owners t files) k).getD w) fn,
      hlo]
    simp [h1]
  have hfn2 : fn ∉ akeys (freshMap src owners t files) :=
    (alookup_eq_none _ _).mp h1
  have hrec : (reconcile o (freshMap src owners t files)).updated =
      (freshMap src owners t files).foldl
        (fun u kv =>
          if !intersects kv.2
              ((alookup (stepA o (freshMap src owners t files)) "*").getD []) then
            dictInsert u kv.1 kv.2
          else u)
        (stepA o (freshMap src owners t files)) := rfl
  rw [hrec, alookup_condInsert_fold _ _ hfn2, hu1, hlo]

theorem gitown_C10_witness :
    alookup (freshMap (fun _ => "") [("a", "A")] 25 ["f"]) "f" = none ∧
    alookup (reconcile [("f", ["X"])]
      (freshMap (fun _ => "") [("a", "A")] 25 ["f"])).updated "f" =
      alookup [("f", ["X"])] "f" := by
  refine ⟨?_, ?_⟩
  · exact (gitown_C10_empty_owners_preserved (fun _ => "") [("a", "A")] 25 ["f"]
      [("f", ["X"])] "f" (by decide) (by decide)).1
  · exact (gitown_C10_empty_owners_preserved (fun _ => "") [("a", "A")] 25 ["f"]
      [("f", ["X"])] "f" (by decide) (by decide)).2 (by decide)

/-- Claim C9: over a whole run starting from an empty cache, the memoized
authorship lookup returns results identical to calling the source directly
(repeated lookups for the same path return the cached text), and the total
number of external source invocations is at most the number of distinct
file paths, no matter how many alias identities are checked per file. -/
theorem gitown_C9_memoized (src : String → String) (owners : AliasTable)
    (t : ℚ) (files : List String) :
    (freshMapSt src owners t files ⟨[], 0⟩).1 =
      freshMap src owners t files ∧
    (freshMapSt src owners t files ⟨[], 0⟩).2.calls ≤
      (dedupFirst files).length := by
  have h0 : GoodCache src ⟨[], 0⟩ :=
    ⟨fun kv hkv => absurd hkv (List.not_mem_nil kv), List.nodup_nil, rfl⟩
  obtain ⟨h1, h2, h3⟩ := freshMapSt_fold src owners t files [] ⟨[], 0⟩ h0
  constructor
  · exact h1
  · obtain ⟨hval, hnd, hlen⟩ := h2
    have hsub : ∀ x ∈ akeys (freshMapSt src owners t files ⟨[], 0⟩).2.cache,
        x ∈ files := by
      intro x hx
      rcases h3 x hx with h4 | h4
      · exact absurd h4 (List.not_mem_nil x)
      · exact h4
    have hle := length_le_dedupFirst hnd hsub
    have hml : (akeys (freshMapSt src owners t files ⟨[], 0⟩).2.cache).length =
        (freshMapSt src owners t files ⟨[], 0⟩).2.cache.length := by
      unfold akeys
      rw [List.length_map]
    rw [show (freshMapSt src owners t files ⟨[], 0⟩).2.calls =
      (freshMapSt src owners t files ⟨[], 0⟩).2.cache.length from hlen, ← hml]
    exact hle

end Gitown
